import Mathlib

/-!
Verification of the Elliott wave analyzer core (swing detector, Fibonacci
level calculator, 5-3 wave labeling classifier).

The source program operates on a pandas price series indexed by strictly
increasing timestamps.  We embed a price series as a `List (ℕ × ℚ)` of
(timestamp, price) pairs; under the strictly-increasing-timestamp domain the
label-based range slices `prices.loc[a:b]` of the source coincide with
positional sub-ranges, which is how we model them.  Prices are embedded as
exact rationals.  Operations that can raise in Python (division by zero,
out-of-range indexing) are embedded in the `Option` monad: `none` models a
raised exception, `some` a returned value.
-/

/-- One detected pivot: timestamp, price, and the direction of the move that
produced it (`+1` up, `-1` down, `0` unknown).  Mirrors the `Swing`
dataclass. -/
structure Swing where
  idx : ℕ
  price : ℚ
  direction : ℤ
deriving Repr, DecidableEq

/-- Maximum of a list of prices (`pandas Series.max` over a nonempty
sub-range; the `[]` case is never used on nonempty ranges). -/
def listMax : List ℚ → ℚ
  | [] => 0
  | [x] => x
  | x :: y :: rest => max x (listMax (y :: rest))

/-- Minimum of a list of prices (`pandas Series.min`). -/
def listMin : List ℚ → ℚ
  | [] => 0
  | [x] => x
  | x :: y :: rest => min x (listMin (y :: rest))

/-- Offset of the first occurrence of the maximum (`pandas Series.idxmax`
returns the first index attaining the maximum). -/
def listArgmax : List ℚ → ℕ
  | [] => 0
  | [_] => 0
  | x :: y :: rest => if x < listMax (y :: rest) then listArgmax (y :: rest) + 1 else 0

/-- Offset of the first occurrence of the minimum (`pandas Series.idxmin`). -/
def listArgmin : List ℚ → ℕ
  | [] => 0
  | [_] => 0
  | x :: y :: rest => if listMin (y :: rest) < x then listArgmin (y :: rest) + 1 else 0

/-- The closed positional sub-range `p[a..i]`, i.e. the embedding of
`prices.loc[last_pivot_idx:idx]` under strictly increasing timestamps. -/
def spanSlice (p : List ℚ) (a i : ℕ) : List ℚ :=
  (p.drop a).take (i + 1 - a)

/-- Line 90 of the source: the upward-rally fraction, guarded only against a
zero `low_since` (`(price - low_since) / low_since if low_since != 0 else
0.0`). -/
def upChangeOf (price lowSince : ℚ) : ℚ :=
  if lowSince ≠ 0 then (price - lowSince) / lowSince else 0

/-- Loop state of `zigzag`: position and price of the last confirmed pivot,
current direction, and the swings accumulated so far. -/
structure ZState where
  lastPos : ℕ
  lastPrice : ℚ
  dir : ℤ
  swings : List Swing
deriving Repr, DecidableEq

/-- Lines 74-86 of the source: the `direction >= 0` block of one loop
iteration.  Computes `high_since` and the drawdown from it (an unguarded
division: a zero `high_since` raises in Python, embedded as `none`), performs
initial direction discovery when `direction == 0` (another unguarded division
by `last_pivot_price`), and otherwise confirms an UP pivot at the first
position attaining the running maximum once the drawdown reaches `-pct`. -/
def zzUpPhase (ts : List ℕ) (p : List ℚ) (pct : ℚ) (i : ℕ) (st : ZState) :
    Option ZState :=
  if st.dir ≥ 0 then
    let price := p.getD i 0
    let highSince := listMax (spanSlice p st.lastPos i)
    if highSince = 0 then none
    else
      let downChange := (price - highSince) / highSince
      if st.dir = 0 then
        if st.lastPrice = 0 then none
        else
          let change := (price - st.lastPrice) / st.lastPrice
          if |change| ≥ pct then
            some { st with dir := if change > 0 then 1 else -1 }
          else
            some st
      else if st.dir = 1 ∧ downChange ≤ -pct then
        let pivotPos := st.lastPos + listArgmax (spanSlice p st.lastPos i)
        let pivotPrice := p.getD pivotPos 0
        some { lastPos := pivotPos, lastPrice := pivotPrice, dir := -1,
               swings := st.swings ++ [⟨ts.getD pivotPos 0, pivotPrice, 1⟩] }
      else
        some st
  else
    some st

/-- Lines 88-100 of the source: the `direction <= 0` block of one loop
iteration.  Computes `low_since` and the rally fraction from it (guarded by
`upChangeOf`), performs direction discovery when `direction == 0`, and
otherwise confirms a DOWN pivot at the first position attaining the running
minimum once the rally reaches `pct`. -/
def zzDownPhase (ts : List ℕ) (p : List ℚ) (pct : ℚ) (i : ℕ) (st : ZState) :
    Option ZState :=
  if st.dir ≤ 0 then
    let price := p.getD i 0
    let lowSince := listMin (spanSlice p st.lastPos i)
    let upChange := upChangeOf price lowSince
    if st.dir = 0 then
      if st.lastPrice = 0 then none
      else
        let change := (price - st.lastPrice) / st.lastPrice
        if |change| ≥ pct then
          some { st with dir := if change > 0 then 1 else -1 }
        else
          some st
    else if st.dir = -1 ∧ upChange ≥ pct then
      let pivotPos := st.lastPos + listArgmin (spanSlice p st.lastPos i)
      let pivotPrice := p.getD pivotPos 0
      some { lastPos := pivotPos, lastPrice := pivotPrice, dir := 1,
             swings := st.swings ++ [⟨ts.getD pivotPos 0, pivotPrice, -1⟩] }
    else
      some st
  else
    some st

/-- One iteration of the `zigzag` scan: the up-block then the down-block, in
source order (the down-block sees any direction flip made by the up-block in
the same iteration). -/
def zzStep (ts : List ℕ) (p : List ℚ) (pct : ℚ) (st : ZState) (i : ℕ) :
    Option ZState := do
  let st1 ← zzUpPhase ts p pct i st
  zzDownPhase ts p pct i st1

/-- Lines 104-107 helper: keep a swing only when its timestamp differs from
the previously kept swing's timestamp (`prev`). -/
def dedupFrom (prev : ℕ) : List Swing → List Swing
  | [] => []
  | s :: rest =>
    if s.idx = prev then dedupFrom prev rest else s :: dedupFrom s.idx rest

/-- Lines 104-107 of the source: deduplicate consecutive swings sharing a
timestamp, keeping the first occurrence. -/
def dedupSwings : List Swing → List Swing
  | [] => []
  | s :: rest => s :: dedupFrom s.idx rest

/-- The swing detector (`zigzag`, lines 54-108).  `pctRaw` is the threshold
in percent; the source divides it by 100 up front.  Returns `none` exactly
when the Python code would raise (a division by zero on line 76 or 78). -/
def zigzag (series : List (ℕ × ℚ)) (pctRaw : ℚ) : Option (List Swing) :=
  match series with
  | [] => some []
  | (t0, p0) :: _ =>
    let ts := series.map Prod.fst
    let p := series.map Prod.snd
    let pct := pctRaw / 100
    let init : ZState := ⟨0, p0, 0, [⟨t0, p0, 0⟩]⟩
    match (List.range' 1 (series.length - 1)).foldlM (zzStep ts p pct) init with
    | none => none
    | some fin =>
      let lastIdx := series.length - 1
      some (dedupSwings (fin.swings ++
        [⟨ts.getD lastIdx 0, p.getD lastIdx 0, fin.dir⟩]))

/-- `fib_levels` (lines 111-123): the fixed retracement levels between `a`
and `b`, as the (key, value) pairs of the returned dict in source order. -/
def fib_levels (a b : ℚ) : List (String × ℚ) :=
  let diff := b - a
  [("0.236", b - 0.236 * diff),
   ("0.382", b - 0.382 * diff),
   ("0.5", b - 0.5 * diff),
   ("0.618", b - 0.618 * diff),
   ("0.786", b - 0.786 * diff),
   ("1.0", a)]

/-- Result of `try_label_5_3`: the Python dict, with `Option` for keys absent
in one of the two shapes (failure dicts carry `reason` and no `trend` or
`points`; the labeling dict carries `trend` and `points` and no `reason`). -/
structure LabelResult where
  ok : Bool
  reason : Option String
  trend : Option String
  labels : List (ℕ × ℚ × String)
  points : List Swing
deriving Repr, DecidableEq

/-- Line 134 of the source: the Python slice `swings[-9:-1]` with its
clamping semantics (for `len swings = n ≥ 1` this is positions
`max 0 (n-9)` up to and excluding `n-1`). -/
def windowSlice (swings : List Swing) : List Swing :=
  (swings.drop (swings.length - 9)).take
    (swings.length - 1 - (swings.length - 9))

/-- Line 153 of the source: the eight wave tags. -/
def waveTags : List String := ["1", "2", "3", "4", "5", "A", "B", "C"]

/-- The classifier (`try_label_5_3`, lines 126-159).  List indexing is
embedded fallibly (`none` models Python's IndexError), and the short-circuit
of `and` on lines 149/151 is preserved: `prices[7]` is only read when the
first conjunct holds. -/
def try_label_5_3 (swings : List Swing) : Option LabelResult :=
  if swings.length < 8 then
    some ⟨false, some "too few swings", none, [], []⟩
  else
    let pts := windowSlice swings
    let prices := pts.map Swing.price
    do
      let p0 ← prices[0]?
      let p5 ← prices[5]?
      if ¬(p5 > p0 ∨ p5 < p0) then
        pure ⟨false, some "unclear trend", none, [], []⟩
      else do
        let p1 ← prices[1]?
        let p2 ← prices[2]?
        let p3 ← prices[3]?
        let p4 ← prices[4]?
        let okImpulse :=
          if p5 > p0 then
            decide (p1 > p0) && decide (p2 < p1) && decide (p3 > p2) &&
              decide (p4 < p3) && decide (p5 > p4)
          else
            decide (p1 < p0) && decide (p2 > p1) && decide (p3 < p2) &&
              decide (p4 > p3) && decide (p5 < p4)
        let p6 ← prices[6]?
        let okCorrection ←
          if p5 > p0 then
            if p6 < p5 then do
              let p7 ← prices[7]?
              pure (decide (p7 > p6))
            else
              pure false
          else
            if p6 > p5 then do
              let p7 ← prices[7]?
              pure (decide (p7 < p6))
            else
              pure false
        let labs ← (List.range 8).mapM (fun i => do
          let s ← pts[i]?
          let tag ← waveTags[i]?
          pure (s.idx, s.price, tag))
        pure { ok := okImpulse && okCorrection,
               reason := none,
               trend := some (if p5 > p0 then "up" else "down"),
               labels := labs,
               points := pts }

/-! ## C9: Fibonacci level calculator -/

/-- C9: for all rationals `a`, `b`, each ratio key of `fib_levels a b` maps to
exactly `b - r * (b - a)`, and the key "1.0" maps to exactly `a`; the
function is a total pure function. -/
theorem fib_levels_values (a b : ℚ) :
    (fib_levels a b).lookup "0.236" = some (b - 0.236 * (b - a)) ∧
    (fib_levels a b).lookup "0.382" = some (b - 0.382 * (b - a)) ∧
    (fib_levels a b).lookup "0.5" = some (b - 0.5 * (b - a)) ∧
    (fib_levels a b).lookup "0.618" = some (b - 0.618 * (b - a)) ∧
    (fib_levels a b).lookup "0.786" = some (b - 0.786 * (b - a)) ∧
    (fib_levels a b).lookup "1.0" = some a := by
  simp [fib_levels, List.lookup]

/-! ## C2: the upward-rally division guard -/

/-- C2 counterexample: for a negative `low_since` the rally fraction is not
substituted by zero — the division is performed (only the zero case is
guarded).  At `price = 1`, `low_since = -1` the computed fraction is `-2`. -/
theorem upChange_negative_low_counterexample :
    (-1 : ℚ) ≤ 0 ∧ upChangeOf 1 (-1) = -2 ∧ upChangeOf 1 (-1) ≠ 0 := by
  norm_num [upChangeOf]

/-- C2 amended: the rally-fraction computation is guarded exactly for a zero
`low_since`, yielding fraction zero there; no division fault can occur (for
nonzero `low_since`, including negative values, the division is performed
normally). -/
theorem upChange_zero_guard (price : ℚ) : upChangeOf price 0 = 0 := by
  simp [upChangeOf]

/-! ## C1: classifier totality at exactly 8 swings -/

/-- C1: with exactly 8 swings (admitted by the `< 8` guard) and a non-equal
trend comparison, the candidate window `swings[-9:-1]` holds only 7 swings
while indices up to 7 are read: the Python code raises IndexError (embedded
`none`), contradicting the spec's totality requirement. -/
theorem try_label_eight_swings_out_of_range :
    try_label_5_3 [⟨0, 1, 0⟩, ⟨1, 2, 0⟩, ⟨2, 3, 0⟩, ⟨3, 4, 0⟩,
                   ⟨4, 5, 0⟩, ⟨5, 6, 0⟩, ⟨6, 7, 0⟩, ⟨7, 8, 0⟩] = none := by
  norm_num [try_label_5_3, windowSlice, waveTags, List.range_succ,
    List.mapM.loop]

lemma getElem?_eq_some_getD {l : List ℚ} {i : ℕ} (h : i < l.length) :
    l[i]? = some (l.getD i 0) := by
  rw [List.getD_eq_getElem?_getD, List.getElem?_eq_getElem h]
  rfl

/-! ## C7: the classifier's two structured failure modes -/

/-- C7: with fewer than 8 swings the classifier returns exactly the
"too few swings" failure dict, and with at least 8 swings whose selected
window has `p[5] = p[0]` it returns exactly the "unclear trend" failure
dict — both as structured results, never as faults. -/
theorem classifier_failure_results (swings : List Swing) :
    (swings.length < 8 →
      try_label_5_3 swings =
        some ⟨false, some "too few swings", none, [], []⟩) ∧
    (8 ≤ swings.length →
      ((windowSlice swings).map Swing.price).getD 5 0 =
        ((windowSlice swings).map Swing.price).getD 0 0 →
      try_label_5_3 swings =
        some ⟨false, some "unclear trend", none, [], []⟩) := by
  constructor
  · intro h
    simp [try_label_5_3, h]
  · intro h8 heq
    have h7 : 7 ≤ ((windowSlice swings).map Swing.price).length := by
      simp only [List.length_map, windowSlice, List.length_take,
        List.length_drop]
      omega
    have h0 := getElem?_eq_some_getD (l := (windowSlice swings).map Swing.price)
      (i := 0) (by omega)
    have h5 := getElem?_eq_some_getD (l := (windowSlice swings).map Swing.price)
      (i := 5) (by omega)
    simp only [try_label_5_3, if_neg (by omega : ¬ swings.length < 8), h0, h5,
      Option.bind_eq_bind, Option.some_bind, heq]
    simp

/-- Witness for C7 at concrete inputs: a 1-swing list and an 8-swing list
with `p[5] = p[0]`. -/
theorem classifier_failure_results_witness :
    try_label_5_3 [⟨0, 1, 0⟩] =
      some ⟨false, some "too few swings", none, [], []⟩ ∧
    try_label_5_3 [⟨0, 5, 0⟩, ⟨1, 2, 0⟩, ⟨2, 3, 0⟩, ⟨3, 4, 0⟩,
                   ⟨4, 9, 0⟩, ⟨5, 5, 0⟩, ⟨6, 7, 0⟩, ⟨7, 8, 0⟩] =
      some ⟨false, some "unclear trend", none, [], []⟩ := by
  constructor
  · exact (classifier_failure_results _).1 (by norm_num)
  · exact (classifier_failure_results _).2 (by norm_num)
      (by norm_num [windowSlice])

/-! ## C6: trend determination and pattern validity -/

/-- C6: past both guards, with the selected window `[s0..s7]`, the reported
trend is "up" iff `p5 > p0` and "down" iff `p5 < p0`, and `ok` holds iff
the impulse alternation and the two-leg correction both hold for the
reported trend direction. -/
theorem classifier_trend_and_ok (swings : List Swing)
    (s0 s1 s2 s3 s4 s5 s6 s7 : Swing) (h9 : 9 ≤ swings.length)
    (hw : windowSlice swings = [s0, s1, s2, s3, s4, s5, s6, s7])
    (hne : s5.price ≠ s0.price) :
    ∃ r, try_label_5_3 swings = some r ∧
      (r.trend = some "up" ↔ s5.price > s0.price) ∧
      (r.trend = some "down" ↔ s5.price < s0.price) ∧
      (r.ok = true ↔
        ((s5.price > s0.price ∧
          s1.price > s0.price ∧ s2.price < s1.price ∧ s3.price > s2.price ∧
          s4.price < s3.price ∧ s5.price > s4.price ∧
          s6.price < s5.price ∧ s7.price > s6.price) ∨
         (s5.price < s0.price ∧
          s1.price < s0.price ∧ s2.price > s1.price ∧ s3.price < s2.price ∧
          s4.price > s3.price ∧ s5.price < s4.price ∧
          s6.price > s5.price ∧ s7.price < s6.price))) := by
  rcases hne.lt_or_lt with hlt | hgt
  · by_cases hc : s5.price < s6.price
    · simp [try_label_5_3, if_neg (show ¬ swings.length < 8 by omega), hw,
        List.range_succ, List.mapM.loop, waveTags, hlt, not_lt.mpr hlt.le, ne_of_gt hlt, hc, and_assoc,
        Bool.and_eq_true, decide_eq_true_iff]
    · simp [try_label_5_3, if_neg (show ¬ swings.length < 8 by omega), hw,
        List.range_succ, List.mapM.loop, waveTags, hlt, not_lt.mpr hlt.le, ne_of_gt hlt, hc, and_assoc,
        Bool.and_eq_true, decide_eq_true_iff]
  · by_cases hc : s6.price < s5.price
    · simp [try_label_5_3, if_neg (show ¬ swings.length < 8 by omega), hw,
        List.range_succ, List.mapM.loop, waveTags, hgt, not_lt.mpr hgt.le, ne_of_lt hgt, hc, and_assoc,
        Bool.and_eq_true, decide_eq_true_iff]
    · simp [try_label_5_3, if_neg (show ¬ swings.length < 8 by omega), hw,
        List.range_succ, List.mapM.loop, waveTags, hgt, not_lt.mpr hgt.le, ne_of_lt hgt, hc, and_assoc,
        Bool.and_eq_true, decide_eq_true_iff]

/-- Witness for C6 at a concrete 9-swing input forming an ideal up-trend
5-3 pattern. -/
theorem classifier_trend_and_ok_witness :
    ∃ r, try_label_5_3 [⟨0, 100, 0⟩, ⟨1, 110, 0⟩, ⟨2, 105, 0⟩, ⟨3, 115, 0⟩,
        ⟨4, 108, 0⟩, ⟨5, 120, 0⟩, ⟨6, 114, 0⟩, ⟨7, 118, 0⟩, ⟨8, 119, 0⟩] =
        some r ∧
      (r.trend = some "up" ↔ (120 : ℚ) > 100) ∧
      (r.trend = some "down" ↔ (120 : ℚ) < 100) ∧
      (r.ok = true ↔
        (((120 : ℚ) > 100 ∧ (110 : ℚ) > 100 ∧ (105 : ℚ) < 110 ∧
          (115 : ℚ) > 105 ∧ (108 : ℚ) < 115 ∧ (120 : ℚ) > 108 ∧
          (114 : ℚ) < 120 ∧ (118 : ℚ) > 114) ∨
         ((120 : ℚ) < 100 ∧ (110 : ℚ) < 100 ∧ (105 : ℚ) > 110 ∧
          (115 : ℚ) < 105 ∧ (108 : ℚ) > 115 ∧ (120 : ℚ) < 108 ∧
          (114 : ℚ) > 120 ∧ (118 : ℚ) < 114))) :=
  classifier_trend_and_ok _ ⟨0, 100, 0⟩ ⟨1, 110, 0⟩ ⟨2, 105, 0⟩ ⟨3, 115, 0⟩
    ⟨4, 108, 0⟩ ⟨5, 120, 0⟩ ⟨6, 114, 0⟩ ⟨7, 118, 0⟩ (by norm_num)
    (by norm_num [windowSlice]) (by norm_num)

/-! ## C5: the labels field past the guards -/

/-- C5 counterexample: exactly 8 swings pass both failure guards (length
guard and strict trend comparison), yet no labels are produced — the code
faults (IndexError, embedded `none`) instead of returning 8 triples. -/
theorem classifier_labels_eight_swings_counterexample :
    (8 ≤ ([⟨0, 10, 0⟩, ⟨1, 20, 0⟩, ⟨2, 30, 0⟩, ⟨3, 40, 0⟩, ⟨4, 50, 0⟩,
           ⟨5, 60, 0⟩, ⟨6, 70, 0⟩, ⟨7, 80, 0⟩] : List Swing).length) ∧
    ((windowSlice [⟨0, 10, 0⟩, ⟨1, 20, 0⟩, ⟨2, 30, 0⟩, ⟨3, 40, 0⟩, ⟨4, 50, 0⟩,
        ⟨5, 60, 0⟩, ⟨6, 70, 0⟩, ⟨7, 80, 0⟩]).map Swing.price).getD 5 0 ≠
      ((windowSlice [⟨0, 10, 0⟩, ⟨1, 20, 0⟩, ⟨2, 30, 0⟩, ⟨3, 40, 0⟩, ⟨4, 50, 0⟩,
        ⟨5, 60, 0⟩, ⟨6, 70, 0⟩, ⟨7, 80, 0⟩]).map Swing.price).getD 0 0 ∧
    try_label_5_3 [⟨0, 10, 0⟩, ⟨1, 20, 0⟩, ⟨2, 30, 0⟩, ⟨3, 40, 0⟩, ⟨4, 50, 0⟩,
        ⟨5, 60, 0⟩, ⟨6, 70, 0⟩, ⟨7, 80, 0⟩] = none := by
  norm_num [try_label_5_3, windowSlice, waveTags, List.range_succ,
    List.mapM.loop]

lemma windowSlice_eq_drop_take {swings : List Swing}
    (h9 : 9 ≤ swings.length) :
    windowSlice swings =
      (swings.take (swings.length - 1)).drop (swings.length - 9) := by
  rw [windowSlice, List.take_drop]
  have h : swings.length - 9 + (swings.length - 1 - (swings.length - 9)) =
      swings.length - 1 := by omega
  rw [h]

/-- C5 amended: with at least 9 swings and a strict trend comparison, the
result's `labels` are exactly the 8 (timestamp, price, tag) triples obtained
by pairing, in order, the eight swings immediately preceding the final
element with the tags "1".."C" — regardless of the value of `ok`. -/
theorem classifier_labels_window (swings : List Swing)
    (s0 s1 s2 s3 s4 s5 s6 s7 : Swing) (h9 : 9 ≤ swings.length)
    (hw : windowSlice swings = [s0, s1, s2, s3, s4, s5, s6, s7])
    (hne : s5.price ≠ s0.price) :
    ∃ r, try_label_5_3 swings = some r ∧
      r.labels = List.zipWith (fun s tag => (s.idx, s.price, tag))
        ((swings.take (swings.length - 1)).drop (swings.length - 9))
        waveTags ∧
      r.labels.length = 8 := by
  simp only [← windowSlice_eq_drop_take h9]
  rcases hne.lt_or_lt with hlt | hgt
  · by_cases hc : s5.price < s6.price
    · simp [try_label_5_3, if_neg (show ¬ swings.length < 8 by omega), hw,
        List.range_succ, List.mapM.loop, waveTags, hlt, not_lt.mpr hlt.le,
        ne_of_gt hlt, hc]
    · simp [try_label_5_3, if_neg (show ¬ swings.length < 8 by omega), hw,
        List.range_succ, List.mapM.loop, waveTags, hlt, not_lt.mpr hlt.le,
        ne_of_gt hlt, hc]
  · by_cases hc : s6.price < s5.price
    · simp [try_label_5_3, if_neg (show ¬ swings.length < 8 by omega), hw,
        List.range_succ, List.mapM.loop, waveTags, hgt, not_lt.mpr hgt.le,
        ne_of_lt hgt, hc]
    · simp [try_label_5_3, if_neg (show ¬ swings.length < 8 by omega), hw,
        List.range_succ, List.mapM.loop, waveTags, hgt, not_lt.mpr hgt.le,
        ne_of_lt hgt, hc]

/-- Witness for C5 at a concrete 10-swing input whose trailing swing is
excluded from the window. -/
theorem classifier_labels_window_witness :
    ∃ r, try_label_5_3 [⟨0, 50, 0⟩, ⟨1, 90, 0⟩, ⟨2, 80, 0⟩, ⟨3, 95, 0⟩,
        ⟨4, 85, 0⟩, ⟨5, 99, 0⟩, ⟨6, 93, 0⟩, ⟨7, 97, 0⟩, ⟨8, 96, 0⟩,
        ⟨9, 98, 0⟩] = some r ∧
      r.labels = List.zipWith (fun s tag => (s.idx, s.price, tag))
        (([(⟨0, 50, 0⟩ : Swing), ⟨1, 90, 0⟩, ⟨2, 80, 0⟩, ⟨3, 95, 0⟩,
           ⟨4, 85, 0⟩, ⟨5, 99, 0⟩, ⟨6, 93, 0⟩, ⟨7, 97, 0⟩, ⟨8, 96, 0⟩,
           ⟨9, 98, 0⟩].take 9).drop 1) waveTags ∧
      r.labels.length = 8 :=
  classifier_labels_window _ ⟨1, 90, 0⟩ ⟨2, 80, 0⟩ ⟨3, 95, 0⟩ ⟨4, 85, 0⟩
    ⟨5, 99, 0⟩ ⟨6, 93, 0⟩ ⟨7, 97, 0⟩ ⟨8, 96, 0⟩ (by norm_num)
    (by norm_num [windowSlice]) (by norm_num)
/-! ## Swing detector: extremum and slice lemmas -/

lemma le_listMax : ∀ (l : List ℚ), ∀ x ∈ l, x ≤ listMax l
  | [a], x, hx => by
    simp only [List.mem_singleton] at hx
    simp [hx, listMax]
  | a :: b :: t, x, hx => by
    rcases List.mem_cons.mp hx with rfl | hx2
    · simp [listMax]
    · exact le_max_of_le_right (le_listMax (b :: t) x hx2)

lemma listMin_le : ∀ (l : List ℚ), ∀ x ∈ l, listMin l ≤ x
  | [a], x, hx => by
    simp only [List.mem_singleton] at hx
    simp [hx, listMin]
  | a :: b :: t, x, hx => by
    rcases List.mem_cons.mp hx with rfl | hx2
    · simp [listMin]
    · exact min_le_of_right_le (listMin_le (b :: t) x hx2)

lemma listMax_mem : ∀ (l : List ℚ), l ≠ [] → listMax l ∈ l
  | [a], _ => by simp [listMax]
  | a :: b :: t, _ => by
    simp only [listMax]
    rcases max_cases a (listMax (b :: t)) with ⟨h, _⟩ | ⟨h, _⟩ <;> rw [h]
    · exact List.mem_cons_self a (b :: t)
    · exact List.mem_cons_of_mem a (listMax_mem (b :: t) (by simp))

lemma listMin_mem : ∀ (l : List ℚ), l ≠ [] → listMin l ∈ l
  | [a], _ => by simp [listMin]
  | a :: b :: t, _ => by
    simp only [listMin]
    rcases min_cases a (listMin (b :: t)) with ⟨h, _⟩ | ⟨h, _⟩ <;> rw [h]
    · exact List.mem_cons_self a (b :: t)
    · exact List.mem_cons_of_mem a (listMin_mem (b :: t) (by simp))

lemma listArgmax_lt_length : ∀ (l : List ℚ), l ≠ [] → listArgmax l < l.length
  | [a], _ => by simp [listArgmax]
  | a :: b :: t, _ => by
    simp only [listArgmax]
    split
    · exact Nat.succ_lt_succ (listArgmax_lt_length (b :: t) (by simp))
    · simp

lemma listArgmin_lt_length : ∀ (l : List ℚ), l ≠ [] → listArgmin l < l.length
  | [a], _ => by simp [listArgmin]
  | a :: b :: t, _ => by
    simp only [listArgmin]
    split
    · exact Nat.succ_lt_succ (listArgmin_lt_length (b :: t) (by simp))
    · simp

lemma listArgmax_getD : ∀ (l : List ℚ), l ≠ [] → l.getD (listArgmax l) 0 = listMax l
  | [a], _ => by simp [listArgmax, listMax]
  | a :: b :: t, _ => by
    simp only [listArgmax, listMax]
    split
    · next h =>
      rw [max_eq_right (le_of_lt h)]
      simpa using listArgmax_getD (b :: t) (by simp)
    · next h =>
      rw [max_eq_left (not_lt.mp h)]
      simp

lemma listArgmin_getD : ∀ (l : List ℚ), l ≠ [] → l.getD (listArgmin l) 0 = listMin l
  | [a], _ => by simp [listArgmin, listMin]
  | a :: b :: t, _ => by
    simp only [listArgmin, listMin]
    split
    · next h =>
      rw [min_eq_right (le_of_lt h)]
      simpa using listArgmin_getD (b :: t) (by simp)
    · next h =>
      rw [min_eq_left (not_lt.mp h)]
      simp

lemma listArgmax_pos : ∀ {a : ℚ} {l : List ℚ}, a < listMax (a :: l) →
    0 < listArgmax (a :: l)
  | a, [], h => by simp [listMax] at h
  | a, b :: t, h => by
    simp only [listMax, lt_max_iff, lt_irrefl, false_or] at h
    simp [listArgmax, h]

lemma listArgmin_pos : ∀ {a : ℚ} {l : List ℚ}, listMin (a :: l) < a →
    0 < listArgmin (a :: l)
  | a, [], h => by simp [listMin] at h
  | a, b :: t, h => by
    simp only [listMin, min_lt_iff, lt_irrefl, false_or] at h
    simp [listArgmin, h]

lemma spanSlice_ne_nil {p : List ℚ} {a i : ℕ} (ha : a ≤ i)
    (hap : a < p.length) : spanSlice p a i ≠ [] := by
  apply List.ne_nil_of_length_pos
  simp only [spanSlice, List.length_take, List.length_drop]
  omega

lemma spanSlice_length_le (p : List ℚ) (a i : ℕ) :
    (spanSlice p a i).length ≤ i + 1 - a := by
  simp only [spanSlice, List.length_take, List.length_drop]
  omega

lemma spanSlice_getD {p : List ℚ} {a i k : ℕ}
    (hk : k < (spanSlice p a i).length) :
    (spanSlice p a i).getD k 0 = p.getD (a + k) 0 := by
  have hkn : k < i + 1 - a := lt_of_lt_of_le hk (spanSlice_length_le p a i)
  rw [List.getD_eq_getElem?_getD, List.getD_eq_getElem?_getD]
  simp [spanSlice, List.getElem?_take, hkn, List.getElem?_drop]

lemma spanSlice_length {p : List ℚ} {a i : ℕ} (ha : a ≤ i)
    (hip : i < p.length) : (spanSlice p a i).length = i + 1 - a := by
  simp only [spanSlice, List.length_take, List.length_drop]
  omega

lemma mem_of_mem_spanSlice {p : List ℚ} {a i : ℕ} {x : ℚ}
    (h : x ∈ spanSlice p a i) : x ∈ p :=
  List.mem_of_mem_drop (List.mem_of_mem_take h)

/-! ## Timestamp order lemmas -/

lemma pairwise_getD_le {ts : List ℕ} (h : ts.Pairwise (· ≤ ·)) {j k : ℕ}
    (hjk : j ≤ k) (hk : k < ts.length) : ts.getD j 0 ≤ ts.getD k 0 := by
  rcases eq_or_lt_of_le hjk with rfl | hlt
  · exact le_refl _
  · have hj : j < ts.length := lt_trans hlt hk
    have hg := List.pairwise_iff_get.mp h ⟨j, hj⟩ ⟨k, hk⟩ hlt
    rw [List.getD_eq_getElem?_getD, List.getD_eq_getElem?_getD,
      List.getElem?_eq_getElem hj, List.getElem?_eq_getElem hk]
    exact hg

lemma pairwise_getD_lt {ts : List ℕ} (h : ts.Pairwise (· < ·)) {j k : ℕ}
    (hjk : j < k) (hk : k < ts.length) : ts.getD j 0 < ts.getD k 0 := by
  have hj : j < ts.length := lt_trans hjk hk
  have hg := List.pairwise_iff_get.mp h ⟨j, hj⟩ ⟨k, hk⟩ hjk
  rw [List.getD_eq_getElem?_getD, List.getD_eq_getElem?_getD,
    List.getElem?_eq_getElem hj, List.getElem?_eq_getElem hk]
  exact hg

/-! ## Deduplication lemmas -/

lemma dedupFrom_cons (prev : ℕ) (s : Swing) (rest : List Swing) :
    dedupFrom prev (s :: rest) =
      if s.idx = prev then dedupFrom prev rest
      else s :: dedupFrom s.idx rest := rfl

lemma mem_of_mem_dedupFrom : ∀ {prev : ℕ} {l : List Swing} {x : Swing},
    x ∈ dedupFrom prev l → x ∈ l
  | _, [], _, h => by simp [dedupFrom] at h
  | prev, s :: rest, x, h => by
    simp only [dedupFrom] at h
    split at h
    · exact List.mem_cons_of_mem s (mem_of_mem_dedupFrom h)
    · rcases List.mem_cons.mp h with rfl | h2
      · exact List.mem_cons_self x rest
      · exact List.mem_cons_of_mem s (mem_of_mem_dedupFrom h2)

lemma mem_of_mem_dedupSwings {l : List Swing} {x : Swing}
    (h : x ∈ dedupSwings l) : x ∈ l := by
  cases l with
  | nil => simp [dedupSwings] at h
  | cons s rest =>
    simp only [dedupSwings] at h
    rcases List.mem_cons.mp h with rfl | h2
    · exact List.mem_cons_self x rest
    · exact List.mem_cons_of_mem s (mem_of_mem_dedupFrom h2)

lemma dedupFrom_strict : ∀ (prev : ℕ) (l : List Swing),
    (l.map Swing.idx).Pairwise (· ≤ ·) → (∀ x ∈ l, prev ≤ x.idx) →
    ((dedupFrom prev l).map Swing.idx).Pairwise (· < ·) ∧
      ∀ x ∈ dedupFrom prev l, prev < x.idx
  | prev, [], _, _ => by simp [dedupFrom]
  | prev, s :: rest, hpw, hge => by
    rw [List.map_cons, List.pairwise_cons] at hpw
    obtain ⟨hs, hpw'⟩ := hpw
    have hall : ∀ x ∈ rest, s.idx ≤ x.idx := by
      intro x hx
      exact hs x.idx (List.mem_map_of_mem Swing.idx hx)
    simp only [dedupFrom]
    split
    · next heq =>
      exact dedupFrom_strict prev rest hpw'
        (fun x hx => heq ▸ hall x hx)
    · next hne =>
      have hps : prev < s.idx :=
        lt_of_le_of_ne (hge s (List.mem_cons_self s rest)) (Ne.symm hne)
      obtain ⟨hpw2, hgt2⟩ := dedupFrom_strict s.idx rest hpw' hall
      constructor
      · rw [List.map_cons, List.pairwise_cons]
        refine ⟨?_, hpw2⟩
        intro y hy
        rcases List.mem_map.mp hy with ⟨x, hx, rfl⟩
        exact hgt2 x hx
      · intro x hx
        rcases List.mem_cons.mp hx with rfl | hx2
        · exact hps
        · exact lt_trans hps (hgt2 x hx2)

lemma dedupSwings_strict {l : List Swing}
    (h : (l.map Swing.idx).Pairwise (· ≤ ·)) :
    ((dedupSwings l).map Swing.idx).Pairwise (· < ·) := by
  cases l with
  | nil => simp [dedupSwings]
  | cons s rest =>
    rw [List.map_cons, List.pairwise_cons] at h
    obtain ⟨hs, hpw⟩ := h
    have hall : ∀ x ∈ rest, s.idx ≤ x.idx := by
      intro x hx
      exact hs x.idx (List.mem_map_of_mem Swing.idx hx)
    obtain ⟨hpw2, hgt2⟩ := dedupFrom_strict s.idx rest hpw hall
    rw [dedupSwings, List.map_cons, List.pairwise_cons]
    refine ⟨?_, hpw2⟩
    intro y hy
    rcases List.mem_map.mp hy with ⟨x, hx, rfl⟩
    exact hgt2 x hx

lemma dedupFrom_id : ∀ (prev : ℕ) (l : List Swing),
    (l.map Swing.idx).Pairwise (· < ·) → (∀ x ∈ l, prev < x.idx) →
    dedupFrom prev l = l
  | prev, [], _, _ => by simp [dedupFrom]
  | prev, s :: rest, hpw, hgt => by
    rw [List.map_cons, List.pairwise_cons] at hpw
    obtain ⟨hs, hpw'⟩ := hpw
    have hne : s.idx ≠ prev := (hgt s (List.mem_cons_self s rest)).ne'
    simp only [dedupFrom, if_neg hne]
    rw [dedupFrom_id s.idx rest hpw'
      (fun x hx => hs x.idx (List.mem_map_of_mem Swing.idx hx))]

lemma dedupSwings_id {l : List Swing}
    (h : (l.map Swing.idx).Pairwise (· < ·)) : dedupSwings l = l := by
  cases l with
  | nil => simp [dedupSwings]
  | cons s rest =>
    rw [List.map_cons, List.pairwise_cons] at h
    obtain ⟨hs, hpw⟩ := h
    rw [dedupSwings, dedupFrom_id s.idx rest hpw
      (fun x hx => hs x.idx (List.mem_map_of_mem Swing.idx hx))]

lemma dedupFrom_last : ∀ (prev : ℕ) (l : List Swing) (z : Swing),
    l.getLast? = some z →
    (dedupFrom prev l = [] ∧ z.idx = prev) ∨
      (∃ y, (dedupFrom prev l).getLast? = some y ∧ y.idx = z.idx)
  | prev, [], z, hz => by simp at hz
  | prev, [s], z, hz => by
    simp only [List.getLast?_singleton, Option.some_inj] at hz
    rw [dedupFrom_cons]
    split
    · next heq => exact Or.inl ⟨rfl, hz ▸ heq⟩
    · next hne => exact Or.inr ⟨s, by simp [dedupFrom], by rw [hz]⟩
  | prev, s :: s2 :: rest, z, hz => by
    rw [List.getLast?_cons_cons] at hz
    rw [dedupFrom_cons]
    split
    · exact dedupFrom_last prev (s2 :: rest) z hz
    · rcases dedupFrom_last s.idx (s2 :: rest) z hz with ⟨hemp, hzi⟩ | ⟨y, hy, hyi⟩
      · rw [hemp]
        exact Or.inr ⟨s, by simp, hzi.symm⟩
      · refine Or.inr ⟨y, ?_, hyi⟩
        rcases hd : dedupFrom s.idx (s2 :: rest) with _ | ⟨w, ws⟩
        · rw [hd] at hy; simp at hy
        · rw [hd] at hy
          rw [List.getLast?_cons_cons]
          exact hy

lemma dedupSwings_last {l : List Swing} {z : Swing}
    (hz : l.getLast? = some z) :
    ∃ y, (dedupSwings l).getLast? = some y ∧ y.idx = z.idx := by
  cases l with
  | nil => simp at hz
  | cons s rest =>
    rw [dedupSwings]
    cases rest with
    | nil =>
      simp only [List.getLast?_singleton, Option.some_inj] at hz
      exact ⟨s, by simp [dedupFrom], by rw [hz]⟩
    | cons s2 rest2 =>
      rw [List.getLast?_cons_cons] at hz
      rcases dedupFrom_last s.idx (s2 :: rest2) z hz with ⟨hemp, hzi⟩ | ⟨y, hy, hyi⟩
      · rw [hemp]
        exact ⟨s, by simp, hzi.symm⟩
      · refine ⟨y, ?_, hyi⟩
        rcases hd : dedupFrom s.idx (s2 :: rest2) with _ | ⟨w, ws⟩
        · rw [hd] at hy; simp at hy
        · rw [hd] at hy
          rw [List.getLast?_cons_cons]
          exact hy
/-! ## Weak loop invariant: swing timestamps are bounded and nondecreasing -/

/-- Invariant of the `zigzag` loop state before processing index `j`: the
last pivot position is below `j`, accumulated swing timestamps are
nondecreasing, and all of them are bounded by the last pivot's timestamp. -/
structure WInv (ts : List ℕ) (j : ℕ) (st : ZState) : Prop where
  lastPos_lt : st.lastPos < j
  idx_pairwise : (st.swings.map Swing.idx).Pairwise (· ≤ ·)
  idx_le : ∀ x ∈ st.swings, x.idx ≤ ts.getD st.lastPos 0

lemma WInv_mono {ts : List ℕ} {j j2 : ℕ} {st : ZState} (hj : j ≤ j2)
    (h : WInv ts j st) : WInv ts j2 st :=
  ⟨lt_of_lt_of_le h.lastPos_lt hj, h.idx_pairwise, h.idx_le⟩

lemma pivot_winv {ts : List ℕ} {p : List ℚ} {i : ℕ} {st : ZState}
    (hts : ts.Pairwise (· ≤ ·)) (hlen : ts.length = p.length)
    (hip : i < p.length) (hst : WInv ts (i + 1) st) {off : ℕ} {d e : ℤ}
    (hoff : off < (spanSlice p st.lastPos i).length) :
    WInv ts (i + 1)
      ⟨st.lastPos + off, p.getD (st.lastPos + off) 0, d,
        st.swings ++ [⟨ts.getD (st.lastPos + off) 0,
          p.getD (st.lastPos + off) 0, e⟩]⟩ := by
  have hle : st.lastPos ≤ i := by
    have := hst.lastPos_lt
    omega
  have hlt : st.lastPos + off < i + 1 := by
    have h1 := spanSlice_length_le p st.lastPos i
    omega
  have hts_le : ts.getD st.lastPos 0 ≤ ts.getD (st.lastPos + off) 0 :=
    pairwise_getD_le hts (Nat.le_add_right _ _) (by omega)
  refine ⟨hlt, ?_, ?_⟩
  · rw [List.map_append, List.pairwise_append]
    refine ⟨hst.idx_pairwise, by simp, ?_⟩
    intro a ha b hb
    rcases List.mem_map.mp ha with ⟨x, hx, rfl⟩
    simp only [List.map_cons, List.map_nil, List.mem_singleton] at hb
    subst hb
    exact le_trans (hst.idx_le x hx) hts_le
  · intro x hx
    rcases List.mem_append.mp hx with hx1 | hx2
    · exact le_trans (hst.idx_le x hx1) hts_le
    · simp only [List.mem_singleton] at hx2
      subst hx2
      exact le_refl _

lemma zzUpPhase_winv {ts : List ℕ} {p : List ℚ} {pct : ℚ} {i : ℕ}
    (hts : ts.Pairwise (· ≤ ·)) (hlen : ts.length = p.length)
    (hip : i < p.length) {st st1 : ZState}
    (hst : WInv ts (i + 1) st) (h : zzUpPhase ts p pct i st = some st1) :
    WInv ts (i + 1) st1 := by
  have hle : st.lastPos ≤ i := by
    have := hst.lastPos_lt
    omega
  simp only [zzUpPhase] at h
  split at h
  · split at h
    · exact absurd h (by simp)
    · split at h
      · split at h
        · exact absurd h (by simp)
        · split at h <;>
          · simp only [Option.some.injEq] at h
            subst h
            exact ⟨hst.lastPos_lt, hst.idx_pairwise, hst.idx_le⟩
      · split at h
        · simp only [Option.some.injEq] at h
          subst h
          exact pivot_winv hts hlen hip hst
            (listArgmax_lt_length _ (spanSlice_ne_nil hle (by omega)))
        · simp only [Option.some.injEq] at h
          subst h
          exact hst
  · simp only [Option.some.injEq] at h
    subst h
    exact hst

lemma zzDownPhase_winv {ts : List ℕ} {p : List ℚ} {pct : ℚ} {i : ℕ}
    (hts : ts.Pairwise (· ≤ ·)) (hlen : ts.length = p.length)
    (hip : i < p.length) {st st1 : ZState}
    (hst : WInv ts (i + 1) st) (h : zzDownPhase ts p pct i st = some st1) :
    WInv ts (i + 1) st1 := by
  have hle : st.lastPos ≤ i := by
    have := hst.lastPos_lt
    omega
  simp only [zzDownPhase] at h
  split at h
  · split at h
    · split at h
      · exact absurd h (by simp)
      · split at h <;>
        · simp only [Option.some.injEq] at h
          subst h
          exact ⟨hst.lastPos_lt, hst.idx_pairwise, hst.idx_le⟩
    · split at h
      · simp only [Option.some.injEq] at h
        subst h
        exact pivot_winv hts hlen hip hst
          (listArgmin_lt_length _ (spanSlice_ne_nil hle (by omega)))
      · simp only [Option.some.injEq] at h
        subst h
        exact hst
  · simp only [Option.some.injEq] at h
    subst h
    exact hst

lemma zzStep_winv {ts : List ℕ} {p : List ℚ} {pct : ℚ} {i : ℕ}
    (hts : ts.Pairwise (· ≤ ·)) (hlen : ts.length = p.length)
    (hip : i < p.length) {st st2 : ZState}
    (hst : WInv ts (i + 1) st) (h : zzStep ts p pct st i = some st2) :
    WInv ts (i + 1) st2 := by
  simp only [zzStep, Option.bind_eq_bind] at h
  rcases hup : zzUpPhase ts p pct i st with _ | st1
  · rw [hup] at h
    exact absurd h (by simp)
  · rw [hup] at h
    simp only [Option.some_bind] at h
    exact zzDownPhase_winv hts hlen hip (zzUpPhase_winv hts hlen hip hst hup) h

lemma zz_fold_winv {ts : List ℕ} {p : List ℚ} {pct : ℚ}
    (hts : ts.Pairwise (· ≤ ·)) (hlen : ts.length = p.length) :
    ∀ (k j : ℕ) (st st2 : ZState), j + k ≤ p.length → WInv ts j st →
      (List.range' j k).foldlM (zzStep ts p pct) st = some st2 →
      WInv ts (j + k) st2
  | 0, j, st, st2, hjk, hst, h => by
    simp only [List.range', List.foldlM_nil, Option.pure_def,
      Option.some.injEq] at h
    subst h
    simpa using hst
  | k + 1, j, st, st2, hjk, hst, h => by
    rw [List.range'_succ, List.foldlM_cons] at h
    rcases hmid : zzStep ts p pct st j with _ | st1
    · rw [hmid] at h
      exact absurd h (by simp)
    · rw [hmid] at h
      simp only [Option.bind_eq_bind, Option.some_bind] at h
      have h1 : WInv ts (j + 1) st1 :=
        zzStep_winv hts hlen (by omega) (WInv_mono (by omega) hst) hmid
      have h2 := zz_fold_winv hts hlen k (j + 1) st1 st2 (by omega) h1 h
      have heq : j + (k + 1) = j + 1 + k := by omega
      rw [heq]
      exact h2
/-! ## C10: output timestamps are strictly increasing -/

/-- C10: for a strictly time-ordered non-empty series and a positive
threshold, the timestamps of any returned swing sequence are strictly
increasing: pivot positions never move backwards, and the final
deduplication removes every equal-timestamp neighbour. -/
theorem zigzag_timestamps_strict (series : List (ℕ × ℚ)) (pctRaw : ℚ)
    (hne : series ≠ []) (hts : (series.map Prod.fst).Pairwise (· < ·))
    (_hpct : 0 < pctRaw) (out : List Swing)
    (h : zigzag series pctRaw = some out) :
    (out.map Swing.idx).Pairwise (· < ·) := by
  rcases series with _ | ⟨⟨t0, q0⟩, rest⟩
  · exact absurd rfl hne
  simp only [zigzag] at h
  rcases hfold : (List.range' 1 (((t0, q0) :: rest).length - 1)).foldlM
      (zzStep (((t0, q0) :: rest).map Prod.fst)
        (((t0, q0) :: rest).map Prod.snd) (pctRaw / 100))
      ⟨0, q0, 0, [⟨t0, q0, 0⟩]⟩ with _ | fin
  · rw [hfold] at h
    exact absurd h (by simp)
  · rw [hfold] at h
    simp only [Option.some.injEq] at h
    subst h
    have hts_le : (((t0, q0) :: rest).map Prod.fst).Pairwise (· ≤ ·) :=
      hts.imp le_of_lt
    have hlen : (((t0, q0) :: rest).map Prod.fst).length =
        (((t0, q0) :: rest).map Prod.snd).length := by simp
    have hinit : WInv (((t0, q0) :: rest).map Prod.fst) 1
        ⟨0, q0, 0, [⟨t0, q0, 0⟩]⟩ := by
      refine ⟨Nat.one_pos, by simp, ?_⟩
      intro x hx
      simp only [List.mem_singleton] at hx
      subst hx
      simp
    have hfin := zz_fold_winv hts_le hlen (((t0, q0) :: rest).length - 1) 1
      _ fin (by simp; omega) hinit hfold
    have hbound : 1 + (((t0, q0) :: rest).length - 1) =
        ((t0, q0) :: rest).length := by simp; omega
    rw [hbound] at hfin
    have hlp : fin.lastPos ≤ ((t0, q0) :: rest).length - 1 := by
      have := hfin.lastPos_lt
      omega
    apply dedupSwings_strict
    rw [List.map_append, List.pairwise_append]
    refine ⟨hfin.idx_pairwise, by simp, ?_⟩
    intro a ha b hb
    rcases List.mem_map.mp ha with ⟨x, hx, rfl⟩
    simp only [List.map_cons, List.map_nil, List.mem_singleton] at hb
    subst hb
    refine le_trans (hfin.idx_le x hx) (pairwise_getD_le hts_le hlp ?_)
    simp

/-- Witness for C10 at a concrete three-point series with a confirmed
up pivot. -/
theorem zigzag_timestamps_strict_witness :
    (([⟨0, 100, 0⟩, ⟨1, 110, 1⟩, ⟨2, 99, -1⟩] : List Swing).map
      Swing.idx).Pairwise (· < ·) :=
  zigzag_timestamps_strict [(0, 100), (1, 110), (2, 99)] 5 (by simp)
    (by simp) (by norm_num) _
    (by norm_num [zigzag, zzStep, zzUpPhase, zzDownPhase, spanSlice, listMax,
      listMin, listArgmax, listArgmin, upChangeOf, dedupSwings, dedupFrom,
      List.range'_succ, List.foldlM_cons, List.foldlM_nil,
      abs_of_nonneg, abs_of_nonpos])
/-! ## Totality invariant under positive prices -/

lemma getD_mem {α : Type} {l : List α} {n : ℕ} (d : α) (h : n < l.length) :
    l.getD n d ∈ l := by
  rw [List.getD_eq_getElem?_getD, List.getElem?_eq_getElem h]
  exact List.getElem_mem h

/-- Invariant of the `zigzag` loop state carrying what the boundary claims
need: the last pivot is a real position with consistent cached price, the
accumulator starts with the anchor, and every accumulated swing carries the
timestamp and price of some series position. -/
structure MidInv (ts : List ℕ) (p : List ℚ) (j : ℕ) (st : ZState) : Prop where
  lastPos_lt : st.lastPos < j
  lastPrice_eq : st.lastPrice = p.getD st.lastPos 0
  head_anchor : st.swings.head? = some ⟨ts.getD 0 0, p.getD 0 0, 0⟩
  coords : ∀ x ∈ st.swings, ∃ k, k < p.length ∧
    x.idx = ts.getD k 0 ∧ x.price = p.getD k 0

lemma MidInv_mono {ts : List ℕ} {p : List ℚ} {j j2 : ℕ} {st : ZState}
    (hj : j ≤ j2) (h : MidInv ts p j st) : MidInv ts p j2 st :=
  ⟨lt_of_lt_of_le h.lastPos_lt hj, h.lastPrice_eq, h.head_anchor, h.coords⟩

lemma pivot_midinv {ts : List ℕ} {p : List ℚ} {i : ℕ} {st : ZState}
    (hip : i < p.length) (hst : MidInv ts p (i + 1) st) {off : ℕ} {d e : ℤ}
    (hoff : off < (spanSlice p st.lastPos i).length) :
    MidInv ts p (i + 1)
      ⟨st.lastPos + off, p.getD (st.lastPos + off) 0, d,
        st.swings ++ [⟨ts.getD (st.lastPos + off) 0,
          p.getD (st.lastPos + off) 0, e⟩]⟩ := by
  have hlt : st.lastPos + off < i + 1 := by
    have h1 := spanSlice_length_le p st.lastPos i
    omega
  refine ⟨hlt, rfl, ?_, ?_⟩
  · rw [List.head?_append, hst.head_anchor]
    rfl
  · intro x hx
    rcases List.mem_append.mp hx with hx1 | hx2
    · exact hst.coords x hx1
    · simp only [List.mem_singleton] at hx2
      subst hx2
      exact ⟨st.lastPos + off, by omega, rfl, rfl⟩

lemma zzUpPhase_mid {ts : List ℕ} {p : List ℚ} (pct : ℚ) {i : ℕ} {st : ZState}
    (hpos : ∀ x ∈ p, 0 < x) (hip : i < p.length)
    (hst : MidInv ts p (i + 1) st) :
    ∃ st1, zzUpPhase ts p pct i st = some st1 ∧ MidInv ts p (i + 1) st1 := by
  have hle : st.lastPos ≤ i := by
    have := hst.lastPos_lt
    omega
  have hlp : 0 < p.getD st.lastPos 0 := hpos _ (getD_mem 0 (by omega))
  rw [zzUpPhase]
  by_cases hd : st.dir ≥ 0
  · rw [if_pos hd]
    have hmax : 0 < listMax (spanSlice p st.lastPos i) :=
      hpos _ (mem_of_mem_spanSlice
        (listMax_mem _ (spanSlice_ne_nil hle (by omega))))
    rw [if_neg (by exact ne_of_gt hmax)]
    by_cases h0 : st.dir = 0
    · rw [if_pos h0, if_neg (by rw [hst.lastPrice_eq]; exact ne_of_gt hlp)]
      by_cases hch : |(p.getD i 0 - st.lastPrice) / st.lastPrice| ≥ pct
      · rw [if_pos hch]
        exact ⟨_, rfl, hst.lastPos_lt, hst.lastPrice_eq, hst.head_anchor,
          hst.coords⟩
      · rw [if_neg hch]
        exact ⟨st, rfl, hst⟩
    · rw [if_neg h0]
      by_cases htr : st.dir = 1 ∧
          (p.getD i 0 - listMax (spanSlice p st.lastPos i)) /
            listMax (spanSlice p st.lastPos i) ≤ -pct
      · rw [if_pos htr]
        exact ⟨_, rfl, pivot_midinv hip hst
          (listArgmax_lt_length _ (spanSlice_ne_nil hle (by omega)))⟩
      · rw [if_neg htr]
        exact ⟨st, rfl, hst⟩
  · rw [if_neg hd]
    exact ⟨st, rfl, hst⟩

lemma zzDownPhase_mid {ts : List ℕ} {p : List ℚ} (pct : ℚ) {i : ℕ}
    {st : ZState} (hpos : ∀ x ∈ p, 0 < x) (hip : i < p.length)
    (hst : MidInv ts p (i + 1) st) :
    ∃ st1, zzDownPhase ts p pct i st = some st1 ∧ MidInv ts p (i + 1) st1 := by
  have hle : st.lastPos ≤ i := by
    have := hst.lastPos_lt
    omega
  have hlp : 0 < p.getD st.lastPos 0 := hpos _ (getD_mem 0 (by omega))
  rw [zzDownPhase]
  by_cases hd : st.dir ≤ 0
  · rw [if_pos hd]
    by_cases h0 : st.dir = 0
    · rw [if_pos h0, if_neg (by rw [hst.lastPrice_eq]; exact ne_of_gt hlp)]
      by_cases hch : |(p.getD i 0 - st.lastPrice) / st.lastPrice| ≥ pct
      · rw [if_pos hch]
        exact ⟨_, rfl, hst.lastPos_lt, hst.lastPrice_eq, hst.head_anchor,
          hst.coords⟩
      · rw [if_neg hch]
        exact ⟨st, rfl, hst⟩
    · rw [if_neg h0]
      by_cases htr : st.dir = -1 ∧
          upChangeOf (p.getD i 0) (listMin (spanSlice p st.lastPos i)) ≥ pct
      · rw [if_pos htr]
        exact ⟨_, rfl, pivot_midinv hip hst
          (listArgmin_lt_length _ (spanSlice_ne_nil hle (by omega)))⟩
      · rw [if_neg htr]
        exact ⟨st, rfl, hst⟩
  · rw [if_neg hd]
    exact ⟨st, rfl, hst⟩

lemma zzStep_mid {ts : List ℕ} {p : List ℚ} (pct : ℚ) {i : ℕ} {st : ZState}
    (hpos : ∀ x ∈ p, 0 < x) (hip : i < p.length)
    (hst : MidInv ts p (i + 1) st) :
    ∃ st2, zzStep ts p pct st i = some st2 ∧ MidInv ts p (i + 1) st2 := by
  obtain ⟨st1, h1, hi1⟩ := zzUpPhase_mid pct hpos hip hst
  obtain ⟨st2, h2, hi2⟩ := zzDownPhase_mid pct hpos hip hi1
  refine ⟨st2, ?_, hi2⟩
  simp only [zzStep, Option.bind_eq_bind, h1, Option.some_bind]
  exact h2

lemma zz_fold_mid {ts : List ℕ} {p : List ℚ} (pct : ℚ)
    (hpos : ∀ x ∈ p, 0 < x) :
    ∀ (k j : ℕ) (st : ZState), j + k ≤ p.length → MidInv ts p j st →
      ∃ st2, (List.range' j k).foldlM (zzStep ts p pct) st = some st2 ∧
        MidInv ts p (j + k) st2
  | 0, j, st, hjk, hst => by
    refine ⟨st, by simp [List.range'], ?_⟩
    simpa using hst
  | k + 1, j, st, hjk, hst => by
    obtain ⟨st1, h1, hi1⟩ := zzStep_mid pct hpos
      (by omega : j < p.length) (MidInv_mono (by omega) hst)
    obtain ⟨st2, h2, hi2⟩ := zz_fold_mid pct hpos k (j + 1) st1 (by omega) hi1
    refine ⟨st2, ?_, ?_⟩
    · rw [List.range'_succ, List.foldlM_cons, h1]
      simpa using h2
    · have heq : j + (k + 1) = j + 1 + k := by omega
      rw [heq]
      exact hi2
/-! ## C8: boundary behaviour of the swing detector -/

/-- C8: on the documented domain (strictly time-ordered series, positive
prices) the detector is total; an empty series yields the empty sequence, a
non-empty series yields a sequence starting with the UNKNOWN anchor at the
first point whose last element carries the final point's timestamp and
price, and a one-point series yields exactly the anchor (closer collapsed by
the timestamp deduplication). -/
theorem zigzag_boundary (series : List (ℕ × ℚ)) (pct : ℚ)
    (hts : (series.map Prod.fst).Pairwise (· < ·))
    (hpos : ∀ x ∈ series, 0 < x.2) :
    (series = [] → zigzag series pct = some []) ∧
    (∀ t0 q0 tl ql, series.head? = some (t0, q0) →
      series.getLast? = some (tl, ql) →
      ∃ out, zigzag series pct = some out ∧
        out.head? = some ⟨t0, q0, 0⟩ ∧
        ∃ z, out.getLast? = some z ∧ z.idx = tl ∧ z.price = ql) ∧
    (∀ t0 q0, series = [(t0, q0)] → zigzag series pct = some [⟨t0, q0, 0⟩]) := by
  refine ⟨?_, ?_, ?_⟩
  · rintro rfl
    rfl
  · intro t0 q0 tl ql hhead hlast
    rcases series with _ | ⟨⟨t0', q0'⟩, rest⟩
    · simp at hhead
    simp only [List.head?_cons, Option.some.injEq, Prod.mk.injEq] at hhead
    obtain ⟨rfl, rfl⟩ := hhead
    have hp : ∀ x ∈ ((t0', q0') :: rest).map Prod.snd, 0 < x := by
      intro x hx
      rcases List.mem_map.mp hx with ⟨⟨a, b⟩, hab, rfl⟩
      exact hpos _ hab
    have hinit : MidInv (((t0', q0') :: rest).map Prod.fst)
        (((t0', q0') :: rest).map Prod.snd) 1
        ⟨0, q0', 0, [⟨t0', q0', 0⟩]⟩ := by
      refine ⟨Nat.one_pos, by simp, by simp, ?_⟩
      intro x hx
      simp only [List.mem_singleton] at hx
      subst hx
      exact ⟨0, by simp, by simp, by simp⟩
    obtain ⟨fin, hfold, hfin⟩ := zz_fold_mid (pct / 100) hp
      (((t0', q0') :: rest).length - 1) 1 _ (by simp; omega) hinit
    have hz : zigzag ((t0', q0') :: rest) pct =
        some (dedupSwings (fin.swings ++
          [⟨(((t0', q0') :: rest).map Prod.fst).getD
              (((t0', q0') :: rest).length - 1) 0,
            (((t0', q0') :: rest).map Prod.snd).getD
              (((t0', q0') :: rest).length - 1) 0, fin.dir⟩])) := by
      simp only [zigzag, hfold]
    have hser : ((t0', q0') :: rest)[((t0', q0') :: rest).length - 1]? =
        some (tl, ql) := by
      rw [← List.getLast?_eq_getElem?]
      exact hlast
    have htl : (((t0', q0') :: rest).map Prod.fst).getD
        (((t0', q0') :: rest).length - 1) 0 = tl := by
      rw [List.getD_eq_getElem?_getD, List.getElem?_map, hser]
      rfl
    have hql : (((t0', q0') :: rest).map Prod.snd).getD
        (((t0', q0') :: rest).length - 1) 0 = ql := by
      rw [List.getD_eq_getElem?_getD, List.getElem?_map, hser]
      rfl
    refine ⟨_, hz, ?_, ?_⟩
    · -- head of the output is the anchor
      rcases hsw : fin.swings with _ | ⟨a, tail⟩
      · have := hfin.head_anchor
        rw [hsw] at this
        simp at this
      · have ha := hfin.head_anchor
        rw [hsw, List.head?_cons, Option.some.injEq] at ha
        subst ha
        simp [dedupSwings]
    · -- last element carries the final point's timestamp and price
      obtain ⟨y, hy, hyidx⟩ := dedupSwings_last
        (List.getLast?_concat (a := ⟨(((t0', q0') :: rest).map Prod.fst).getD
            (((t0', q0') :: rest).length - 1) 0,
          (((t0', q0') :: rest).map Prod.snd).getD
            (((t0', q0') :: rest).length - 1) 0, fin.dir⟩) fin.swings)
      refine ⟨y, hy, ?_, ?_⟩
      · rw [hyidx]
        exact htl
      · -- recover the price through the coordinates of the swing
        have hymem : y ∈ fin.swings ++
            [⟨(((t0', q0') :: rest).map Prod.fst).getD
                (((t0', q0') :: rest).length - 1) 0,
              (((t0', q0') :: rest).map Prod.snd).getD
                (((t0', q0') :: rest).length - 1) 0, fin.dir⟩] :=
          mem_of_mem_dedupSwings
            (List.mem_of_mem_getLast? (Option.mem_def.mpr hy))
        have hcoords : ∃ k, k < (((t0', q0') :: rest).map Prod.snd).length ∧
            y.idx = (((t0', q0') :: rest).map Prod.fst).getD k 0 ∧
            y.price = (((t0', q0') :: rest).map Prod.snd).getD k 0 := by
          rcases List.mem_append.mp hymem with hy1 | hy2
          · exact hfin.coords y hy1
          · simp only [List.mem_singleton] at hy2
            subst hy2
            exact ⟨((t0', q0') :: rest).length - 1, by simp, rfl, rfl⟩
        obtain ⟨k, hk, hki, hkp⟩ := hcoords
        have hyi2 : y.idx = tl := by
          rw [hyidx]
          exact htl
        have hkeq : k = ((t0', q0') :: rest).length - 1 := by
          by_contra hkne
          have hklt : k < ((t0', q0') :: rest).length - 1 := by
            simp only [List.length_map] at hk
            omega
          have hlt2 := pairwise_getD_lt hts hklt (by simp)
          rw [← hki, hyi2, htl] at hlt2
          exact lt_irrefl _ hlt2
        rw [hkp, hkeq]
        exact hql
  · rintro t0 q0 rfl
    simp [zigzag, dedupSwings, dedupFrom]

/-- Witness for C8 at a concrete two-point series. -/
theorem zigzag_boundary_witness :
    ∃ out, zigzag [(3, 7), (5, 9)] 50 = some out ∧
      out.head? = some ⟨3, 7, 0⟩ ∧
      ∃ z, out.getLast? = some z ∧ z.idx = 5 ∧ z.price = 9 :=
  (zigzag_boundary [(3, 7), (5, 9)] 50 (by simp) (by norm_num)).2.1
    3 7 5 9 rfl rfl
/-! ## Alternation invariant (positive threshold, positive prices) -/

/-- Strong invariant of the `zigzag` loop state used for the alternation
property: swing timestamps strictly increase, the accumulated non-anchor
swings alternate direction, the current direction is opposite to the last
appended pivot's, and a direction of ±1 is always justified by a witness
point that moved at least `pct` away from the last pivot (which forces the
next confirmed pivot strictly past the current one). -/
structure AltInv (ts : List ℕ) (p : List ℚ) (pct : ℚ) (j : ℕ) (st : ZState) :
    Prop where
  lastPos_lt : st.lastPos < j
  lastPos_lt_n : st.lastPos < p.length
  lastPos_succ : st.lastPos = 0 ∨ st.lastPos + 1 < j
  lastPrice_eq : st.lastPrice = p.getD st.lastPos 0
  swings_ne : st.swings ≠ []
  idx_pairwise : (st.swings.map Swing.idx).Pairwise (· < ·)
  idx_le : ∀ x ∈ st.swings, x.idx ≤ ts.getD st.lastPos 0
  dirs : st.dir = 0 ∨ st.dir = 1 ∨ st.dir = -1
  tail_dirs : ∀ x ∈ st.swings.tail, x.direction = 1 ∨ x.direction = -1
  tail_alt : List.Chain' (fun a b => b.direction = -a.direction) st.swings.tail
  tail_last : ∀ s, st.swings.tail.getLast? = some s → s.direction = -st.dir
  up_wit : st.dir = 1 → ∃ jj, st.lastPos ≤ jj ∧ jj < j ∧ jj < p.length ∧
    p.getD st.lastPos 0 * (1 + pct) ≤ p.getD jj 0
  down_wit : st.dir = -1 → ∃ jj, st.lastPos ≤ jj ∧ jj < j ∧ jj < p.length ∧
    p.getD jj 0 ≤ p.getD st.lastPos 0 * (1 - pct)

lemma AltInv_mono {ts : List ℕ} {p : List ℚ} {pct : ℚ} {j j2 : ℕ}
    {st : ZState} (hj : j ≤ j2) (h : AltInv ts p pct j st) :
    AltInv ts p pct j2 st := by
  refine ⟨lt_of_lt_of_le h.lastPos_lt hj, h.lastPos_lt_n, ?_, h.lastPrice_eq,
    h.swings_ne, h.idx_pairwise, h.idx_le, h.dirs, h.tail_dirs, h.tail_alt,
    h.tail_last, ?_, ?_⟩
  · rcases h.lastPos_succ with h0 | hs
    · exact Or.inl h0
    · exact Or.inr (lt_of_lt_of_le hs hj)
  · intro h1
    obtain ⟨jj, hj1, hj2, hj3, hj4⟩ := h.up_wit h1
    exact ⟨jj, hj1, lt_of_lt_of_le hj2 hj, hj3, hj4⟩
  · intro h1
    obtain ⟨jj, hj1, hj2, hj3, hj4⟩ := h.down_wit h1
    exact ⟨jj, hj1, lt_of_lt_of_le hj2 hj, hj3, hj4⟩

lemma AltInv.tail_nil {ts : List ℕ} {p : List ℚ} {pct : ℚ} {j : ℕ}
    {st : ZState} (hst : AltInv ts p pct j st) (h0 : st.dir = 0) :
    st.swings.tail = [] := by
  rcases ht : st.swings.tail with _ | ⟨a, l⟩
  · rfl
  · exfalso
    have hz : st.swings.tail.getLast? = some ((a :: l).getLast (by simp)) := by
      rw [ht]
      exact List.getLast?_eq_getLast _ _
    have h1 := hst.tail_last _ hz
    rw [h0] at h1
    have h2 := hst.tail_dirs ((a :: l).getLast (by simp))
      (by rw [ht]; exact List.getLast_mem _)
    simp only [neg_zero] at h1
    rcases h2 with h2 | h2 <;> rw [h1] at h2 <;> exact absurd h2 (by norm_num)

lemma chain_ne_of_alt : ∀ (l : List Swing),
    (∀ x ∈ l, x.direction = 1 ∨ x.direction = -1) →
    List.Chain' (fun a b => b.direction = -a.direction) l →
    List.Chain' (fun a b => a.direction ≠ b.direction) l
  | [], _, _ => List.chain'_nil
  | [_], _, _ => List.chain'_singleton _
  | a :: b :: t, hd, hc => by
    rw [List.chain'_cons] at hc ⊢
    obtain ⟨hab, hc'⟩ := hc
    refine ⟨?_, chain_ne_of_alt (b :: t)
      (fun x hx => hd x (List.mem_cons_of_mem a hx)) hc'⟩
    rcases hd a (List.mem_cons_self a _) with ha | ha <;>
      rw [hab, ha] <;> norm_num

lemma pairwise_append_swing {l : List Swing} {s : Swing}
    (hpw : (l.map Swing.idx).Pairwise (· < ·))
    (hbd : ∀ x ∈ l, x.idx < s.idx) :
    ((l ++ [s]).map Swing.idx).Pairwise (· < ·) := by
  rw [List.map_append, List.pairwise_append]
  refine ⟨hpw, by simp, ?_⟩
  intro a ha b hb
  rcases List.mem_map.mp ha with ⟨x, hx, rfl⟩
  simp only [List.map_cons, List.map_nil, List.mem_singleton] at hb
  subst hb
  exact hbd x hx

lemma tail_append_of_ne_nil {l : List Swing} {s : Swing} (h : l ≠ []) :
    (l ++ [s]).tail = l.tail ++ [s] := by
  rcases l with _ | ⟨a, t⟩
  · exact absurd rfl h
  · rfl
lemma pivot_alt_up {ts : List ℕ} {p : List ℚ} {pct : ℚ} {i : ℕ} {st : ZState}
    (hts : ts.Pairwise (· < ·)) (hlen : ts.length = p.length)
    (hpos : ∀ x ∈ p, 0 < x) (hpct : 0 < pct) (hip : i < p.length)
    (hst : AltInv ts p pct (i + 1) st) (hdir : st.dir = 1)
    (htrig : (p.getD i 0 - listMax (spanSlice p st.lastPos i)) /
      listMax (spanSlice p st.lastPos i) ≤ -pct) :
    AltInv ts p pct (i + 1)
      ⟨st.lastPos + listArgmax (spanSlice p st.lastPos i),
       p.getD (st.lastPos + listArgmax (spanSlice p st.lastPos i)) 0, -1,
       st.swings ++
         [⟨ts.getD (st.lastPos + listArgmax (spanSlice p st.lastPos i)) 0,
           p.getD (st.lastPos + listArgmax (spanSlice p st.lastPos i)) 0,
           1⟩]⟩ := by
  have hle : st.lastPos ≤ i := by
    have := hst.lastPos_lt
    omega
  have hsne : spanSlice p st.lastPos i ≠ [] :=
    spanSlice_ne_nil hle hst.lastPos_lt_n
  have hslen : (spanSlice p st.lastPos i).length = i + 1 - st.lastPos :=
    spanSlice_length hle hip
  have hs_pos : 0 < listMax (spanSlice p st.lastPos i) :=
    hpos _ (mem_of_mem_spanSlice (listMax_mem _ hsne))
  have hlp_pos : 0 < p.getD st.lastPos 0 :=
    hpos _ (getD_mem 0 hst.lastPos_lt_n)
  obtain ⟨jj, hjj1, hjj2, hjj3, hjj4⟩ := hst.up_wit hdir
  have hjmem : p.getD jj 0 ∈ spanSlice p st.lastPos i := by
    have hk : jj - st.lastPos < (spanSlice p st.lastPos i).length := by
      rw [hslen]
      omega
    have hg := spanSlice_getD hk
    rw [Nat.add_sub_cancel' hjj1] at hg
    rw [← hg]
    exact getD_mem 0 hk
  have hs_ge : p.getD jj 0 ≤ listMax (spanSlice p st.lastPos i) :=
    le_listMax _ _ hjmem
  have hs_gt_lp : p.getD st.lastPos 0 < listMax (spanSlice p st.lastPos i) := by
    nlinarith
  have hargpos : 0 < listArgmax (spanSlice p st.lastPos i) := by
    rcases hsl : spanSlice p st.lastPos i with _ | ⟨hd, tl⟩
    · exact absurd hsl hsne
    · have hhead : hd = p.getD st.lastPos 0 := by
        have h0 : (0 : ℕ) < (spanSlice p st.lastPos i).length := by
          rw [hslen]; omega
        have := spanSlice_getD h0
        rw [hsl] at this
        simpa using this
      rw [hsl] at hs_gt_lp
      rw [← hhead] at hs_gt_lp
      exact listArgmax_pos hs_gt_lp
  have hargl : listArgmax (spanSlice p st.lastPos i) <
      (spanSlice p st.lastPos i).length := listArgmax_lt_length _ hsne
  have hpp_le : st.lastPos + listArgmax (spanSlice p st.lastPos i) ≤ i := by
    rw [hslen] at hargl
    omega
  have hppr : p.getD (st.lastPos + listArgmax (spanSlice p st.lastPos i)) 0 =
      listMax (spanSlice p st.lastPos i) := by
    rw [← spanSlice_getD hargl]
    exact listArgmax_getD _ hsne
  have hpi_le : p.getD i 0 ≤ listMax (spanSlice p st.lastPos i) * (1 - pct) := by
    have h1 := (div_le_iff₀ hs_pos).mp htrig
    nlinarith
  have hpi_lt : p.getD i 0 < listMax (spanSlice p st.lastPos i) := by
    nlinarith
  have hpp_lt_i : st.lastPos + listArgmax (spanSlice p st.lastPos i) < i := by
    rcases lt_or_eq_of_le hpp_le with h | h
    · exact h
    · exfalso
      rw [h] at hppr
      rw [hppr] at hpi_lt
      exact lt_irrefl _ hpi_lt
  have hpp_lt_n : st.lastPos + listArgmax (spanSlice p st.lastPos i) <
      p.length := by omega
  have hts_lt : ts.getD st.lastPos 0 <
      ts.getD (st.lastPos + listArgmax (spanSlice p st.lastPos i)) 0 :=
    pairwise_getD_lt hts (by omega) (by rw [hlen]; omega)
  have hq1 : st.lastPos + listArgmax (spanSlice p st.lastPos i) < i + 1 := by
    omega
  have hq2 : st.lastPos + listArgmax (spanSlice p st.lastPos i) + 1 <
      i + 1 := by omega
  refine ⟨hq1, hpp_lt_n, Or.inr hq2, rfl, by simp, ?_, ?_,
    Or.inr (Or.inr rfl), ?_, ?_, ?_, ?_, ?_⟩
  · exact pairwise_append_swing hst.idx_pairwise
      (fun x hx => lt_of_le_of_lt (hst.idx_le x hx) hts_lt)
  · intro x hx
    rcases List.mem_append.mp hx with hx1 | hx2
    · exact le_trans (hst.idx_le x hx1) (le_of_lt hts_lt)
    · simp only [List.mem_singleton] at hx2
      subst hx2
      exact le_refl _
  · intro x hx
    rw [tail_append_of_ne_nil hst.swings_ne] at hx
    rcases List.mem_append.mp hx with hx1 | hx2
    · exact hst.tail_dirs x hx1
    · simp only [List.mem_singleton] at hx2
      subst hx2
      exact Or.inl rfl
  · rw [tail_append_of_ne_nil hst.swings_ne, List.chain'_append]
    refine ⟨hst.tail_alt, List.chain'_singleton _, ?_⟩
    intro x hx y hy
    simp only [List.head?_cons, Option.mem_some_iff] at hy
    subst hy
    have := hst.tail_last x (Option.mem_def.mp hx)
    rw [hdir] at this
    simp only [this]
    norm_num
  · intro s hs
    rw [tail_append_of_ne_nil hst.swings_ne, List.getLast?_concat,
      Option.some_inj] at hs
    subst hs
    norm_num
  · intro h1
    exact absurd h1 (by norm_num)
  · intro _
    refine ⟨i, hpp_le, by omega, hip, ?_⟩
    rw [hppr]
    exact hpi_le

lemma pivot_alt_down {ts : List ℕ} {p : List ℚ} {pct : ℚ} {i : ℕ}
    {st : ZState}
    (hts : ts.Pairwise (· < ·)) (hlen : ts.length = p.length)
    (hpos : ∀ x ∈ p, 0 < x) (hpct : 0 < pct) (hip : i < p.length)
    (hst : AltInv ts p pct (i + 1) st) (hdir : st.dir = -1)
    (htrig : upChangeOf (p.getD i 0) (listMin (spanSlice p st.lastPos i)) ≥
      pct) :
    AltInv ts p pct (i + 1)
      ⟨st.lastPos + listArgmin (spanSlice p st.lastPos i),
       p.getD (st.lastPos + listArgmin (spanSlice p st.lastPos i)) 0, 1,
       st.swings ++
         [⟨ts.getD (st.lastPos + listArgmin (spanSlice p st.lastPos i)) 0,
           p.getD (st.lastPos + listArgmin (spanSlice p st.lastPos i)) 0,
           -1⟩]⟩ := by
  have hle : st.lastPos ≤ i := by
    have := hst.lastPos_lt
    omega
  have hsne : spanSlice p st.lastPos i ≠ [] :=
    spanSlice_ne_nil hle hst.lastPos_lt_n
  have hslen : (spanSlice p st.lastPos i).length = i + 1 - st.lastPos :=
    spanSlice_length hle hip
  have hs_pos : 0 < listMin (spanSlice p st.lastPos i) :=
    hpos _ (mem_of_mem_spanSlice (listMin_mem _ hsne))
  have hlp_pos : 0 < p.getD st.lastPos 0 :=
    hpos _ (getD_mem 0 hst.lastPos_lt_n)
  have htrig2 : (p.getD i 0 - listMin (spanSlice p st.lastPos i)) /
      listMin (spanSlice p st.lastPos i) ≥ pct := by
    rw [upChangeOf, if_pos (ne_of_gt hs_pos)] at htrig
    exact htrig
  obtain ⟨jj, hjj1, hjj2, hjj3, hjj4⟩ := hst.down_wit hdir
  have hjmem : p.getD jj 0 ∈ spanSlice p st.lastPos i := by
    have hk : jj - st.lastPos < (spanSlice p st.lastPos i).length := by
      rw [hslen]
      omega
    have hg := spanSlice_getD hk
    rw [Nat.add_sub_cancel' hjj1] at hg
    rw [← hg]
    exact getD_mem 0 hk
  have hs_ge : listMin (spanSlice p st.lastPos i) ≤ p.getD jj 0 :=
    listMin_le _ _ hjmem
  have hs_lt_lp : listMin (spanSlice p st.lastPos i) < p.getD st.lastPos 0 := by
    nlinarith
  have hargpos : 0 < listArgmin (spanSlice p st.lastPos i) := by
    rcases hsl : spanSlice p st.lastPos i with _ | ⟨hd, tl⟩
    · exact absurd hsl hsne
    · have hhead : hd = p.getD st.lastPos 0 := by
        have h0 : (0 : ℕ) < (spanSlice p st.lastPos i).length := by
          rw [hslen]; omega
        have := spanSlice_getD h0
        rw [hsl] at this
        simpa using this
      rw [hsl] at hs_lt_lp
      rw [← hhead] at hs_lt_lp
      exact listArgmin_pos hs_lt_lp
  have hargl : listArgmin (spanSlice p st.lastPos i) <
      (spanSlice p st.lastPos i).length := listArgmin_lt_length _ hsne
  have hpp_le : st.lastPos + listArgmin (spanSlice p st.lastPos i) ≤ i := by
    rw [hslen] at hargl
    omega
  have hppr : p.getD (st.lastPos + listArgmin (spanSlice p st.lastPos i)) 0 =
      listMin (spanSlice p st.lastPos i) := by
    rw [← spanSlice_getD hargl]
    exact listArgmin_getD _ hsne
  have hpi_ge : listMin (spanSlice p st.lastPos i) * (1 + pct) ≤
      p.getD i 0 := by
    have h1 := (le_div_iff₀ hs_pos).mp htrig2
    nlinarith
  have hpi_gt : listMin (spanSlice p st.lastPos i) < p.getD i 0 := by
    nlinarith
  have hpp_lt_i : st.lastPos + listArgmin (spanSlice p st.lastPos i) < i := by
    rcases lt_or_eq_of_le hpp_le with h | h
    · exact h
    · exfalso
      rw [h] at hppr
      rw [hppr] at hpi_gt
      exact lt_irrefl _ hpi_gt
  have hpp_lt_n : st.lastPos + listArgmin (spanSlice p st.lastPos i) <
      p.length := by omega
  have hts_lt : ts.getD st.lastPos 0 <
      ts.getD (st.lastPos + listArgmin (spanSlice p st.lastPos i)) 0 :=
    pairwise_getD_lt hts (by omega) (by rw [hlen]; omega)
  have hq1 : st.lastPos + listArgmin (spanSlice p st.lastPos i) < i + 1 := by
    omega
  have hq2 : st.lastPos + listArgmin (spanSlice p st.lastPos i) + 1 <
      i + 1 := by omega
  refine ⟨hq1, hpp_lt_n, Or.inr hq2, rfl, by simp, ?_, ?_,
    Or.inr (Or.inl rfl), ?_, ?_, ?_, ?_, ?_⟩
  · exact pairwise_append_swing hst.idx_pairwise
      (fun x hx => lt_of_le_of_lt (hst.idx_le x hx) hts_lt)
  · intro x hx
    rcases List.mem_append.mp hx with hx1 | hx2
    · exact le_trans (hst.idx_le x hx1) (le_of_lt hts_lt)
    · simp only [List.mem_singleton] at hx2
      subst hx2
      exact le_refl _
  · intro x hx
    rw [tail_append_of_ne_nil hst.swings_ne] at hx
    rcases List.mem_append.mp hx with hx1 | hx2
    · exact hst.tail_dirs x hx1
    · simp only [List.mem_singleton] at hx2
      subst hx2
      exact Or.inr rfl
  · rw [tail_append_of_ne_nil hst.swings_ne, List.chain'_append]
    refine ⟨hst.tail_alt, List.chain'_singleton _, ?_⟩
    intro x hx y hy
    simp only [List.head?_cons, Option.mem_some_iff] at hy
    subst hy
    have := hst.tail_last x (Option.mem_def.mp hx)
    rw [hdir] at this
    simp only [this]
    norm_num
  · intro s hs
    rw [tail_append_of_ne_nil hst.swings_ne, List.getLast?_concat,
      Option.some_inj] at hs
    subst hs
    norm_num
  · intro _
    refine ⟨i, hpp_le, by omega, hip, ?_⟩
    rw [hppr]
    exact hpi_ge
  · intro h1
    exact absurd h1 (by norm_num)
lemma discovery_alt {ts : List ℕ} {p : List ℚ} {pct : ℚ} {i : ℕ} {st : ZState}
    (_hpct : 0 < pct) (hip : i < p.length)
    (hst : AltInv ts p pct (i + 1) st) (h0 : st.dir = 0)
    (hch : |(p.getD i 0 - st.lastPrice) / st.lastPrice| ≥ pct)
    (hlp_pos : 0 < p.getD st.lastPos 0) :
    AltInv ts p pct (i + 1)
      { st with dir := if (p.getD i 0 - st.lastPrice) / st.lastPrice > 0
          then 1 else -1 } := by
  have htl := hst.tail_nil h0
  have hle : st.lastPos ≤ i := by
    have := hst.lastPos_lt
    omega
  rw [hst.lastPrice_eq] at hch
  by_cases hc : (p.getD i 0 - st.lastPrice) / st.lastPrice > 0
  · rw [if_pos hc]
    rw [hst.lastPrice_eq] at hc
    have hchg : pct ≤ (p.getD i 0 - p.getD st.lastPos 0) /
        p.getD st.lastPos 0 := by
      rw [abs_of_pos hc] at hch
      exact hch
    have hwit : p.getD st.lastPos 0 * (1 + pct) ≤ p.getD i 0 := by
      have h1 := (le_div_iff₀ hlp_pos).mp hchg
      nlinarith
    refine ⟨hst.lastPos_lt, hst.lastPos_lt_n, hst.lastPos_succ,
      hst.lastPrice_eq, hst.swings_ne, hst.idx_pairwise, hst.idx_le,
      Or.inr (Or.inl rfl), hst.tail_dirs, hst.tail_alt, ?_, ?_, ?_⟩
    · intro s hs
      rw [htl] at hs
      simp at hs
    · intro _
      exact ⟨i, hle, by omega, hip, hwit⟩
    · intro h1
      exact absurd h1 (by norm_num)
  · rw [if_neg hc]
    rw [hst.lastPrice_eq] at hc
    have hchg : (p.getD i 0 - p.getD st.lastPos 0) /
        p.getD st.lastPos 0 ≤ -pct := by
      rw [abs_of_nonpos (not_lt.mp hc)] at hch
      linarith
    have hwit : p.getD i 0 ≤ p.getD st.lastPos 0 * (1 - pct) := by
      have h1 := (div_le_iff₀ hlp_pos).mp hchg
      nlinarith
    refine ⟨hst.lastPos_lt, hst.lastPos_lt_n, hst.lastPos_succ,
      hst.lastPrice_eq, hst.swings_ne, hst.idx_pairwise, hst.idx_le,
      Or.inr (Or.inr rfl), hst.tail_dirs, hst.tail_alt, ?_, ?_, ?_⟩
    · intro s hs
      rw [htl] at hs
      simp at hs
    · intro h1
      exact absurd h1 (by norm_num)
    · intro _
      exact ⟨i, hle, by omega, hip, hwit⟩

lemma zzUpPhase_alt {ts : List ℕ} {p : List ℚ} {pct : ℚ} {i : ℕ}
    {st st1 : ZState}
    (hts : ts.Pairwise (· < ·)) (hlen : ts.length = p.length)
    (hpos : ∀ x ∈ p, 0 < x) (hpct : 0 < pct) (hip : i < p.length)
    (hst : AltInv ts p pct (i + 1) st)
    (h : zzUpPhase ts p pct i st = some st1) :
    AltInv ts p pct (i + 1) st1 := by
  have hlp_pos : 0 < p.getD st.lastPos 0 :=
    hpos _ (getD_mem 0 hst.lastPos_lt_n)
  simp only [zzUpPhase] at h
  split at h
  · split at h
    · exact absurd h (by simp)
    · split at h
      · split at h
        · exact absurd h (by simp)
        · split at h
          · next hch =>
            simp only [Option.some.injEq] at h
            subst h
            next h0 _ =>
              exact discovery_alt hpct hip hst h0 hch hlp_pos
          · simp only [Option.some.injEq] at h
            subst h
            exact hst
      · split at h
        · next htr =>
          simp only [Option.some.injEq] at h
          subst h
          exact pivot_alt_up hts hlen hpos hpct hip hst htr.1 htr.2
        · simp only [Option.some.injEq] at h
          subst h
          exact hst
  · simp only [Option.some.injEq] at h
    subst h
    exact hst

lemma zzDownPhase_alt {ts : List ℕ} {p : List ℚ} {pct : ℚ} {i : ℕ}
    {st st1 : ZState}
    (hts : ts.Pairwise (· < ·)) (hlen : ts.length = p.length)
    (hpos : ∀ x ∈ p, 0 < x) (hpct : 0 < pct) (hip : i < p.length)
    (hst : AltInv ts p pct (i + 1) st)
    (h : zzDownPhase ts p pct i st = some st1) :
    AltInv ts p pct (i + 1) st1 := by
  have hlp_pos : 0 < p.getD st.lastPos 0 :=
    hpos _ (getD_mem 0 hst.lastPos_lt_n)
  simp only [zzDownPhase] at h
  split at h
  · split at h
    · split at h
      · exact absurd h (by simp)
      · split at h
        · next hch =>
          simp only [Option.some.injEq] at h
          subst h
          next h0 _ =>
            exact discovery_alt hpct hip hst h0 hch hlp_pos
        · simp only [Option.some.injEq] at h
          subst h
          exact hst
    · split at h
      · next htr =>
        simp only [Option.some.injEq] at h
        subst h
        exact pivot_alt_down hts hlen hpos hpct hip hst htr.1 htr.2
      · simp only [Option.some.injEq] at h
        subst h
        exact hst
  · simp only [Option.some.injEq] at h
    subst h
    exact hst

lemma zzStep_alt {ts : List ℕ} {p : List ℚ} {pct : ℚ} {i : ℕ}
    {st st2 : ZState}
    (hts : ts.Pairwise (· < ·)) (hlen : ts.length = p.length)
    (hpos : ∀ x ∈ p, 0 < x) (hpct : 0 < pct) (hip : i < p.length)
    (hst : AltInv ts p pct (i + 1) st)
    (h : zzStep ts p pct st i = some st2) :
    AltInv ts p pct (i + 1) st2 := by
  simp only [zzStep, Option.bind_eq_bind] at h
  rcases hup : zzUpPhase ts p pct i st with _ | st1
  · rw [hup] at h
    exact absurd h (by simp)
  · rw [hup] at h
    simp only [Option.some_bind] at h
    exact zzDownPhase_alt hts hlen hpos hpct hip
      (zzUpPhase_alt hts hlen hpos hpct hip hst hup) h

lemma zz_fold_alt {ts : List ℕ} {p : List ℚ} {pct : ℚ}
    (hts : ts.Pairwise (· < ·)) (hlen : ts.length = p.length)
    (hpos : ∀ x ∈ p, 0 < x) (hpct : 0 < pct) :
    ∀ (k j : ℕ) (st st2 : ZState), j + k ≤ p.length → AltInv ts p pct j st →
      (List.range' j k).foldlM (zzStep ts p pct) st = some st2 →
      AltInv ts p pct (j + k) st2
  | 0, j, st, st2, hjk, hst, h => by
    simp only [List.range', List.foldlM_nil, Option.pure_def,
      Option.some.injEq] at h
    subst h
    simpa using hst
  | k + 1, j, st, st2, hjk, hst, h => by
    rw [List.range'_succ, List.foldlM_cons] at h
    rcases hmid : zzStep ts p pct st j with _ | st1
    · rw [hmid] at h
      exact absurd h (by simp)
    · rw [hmid] at h
      simp only [Option.bind_eq_bind, Option.some_bind] at h
      have h1 : AltInv ts p pct (j + 1) st1 :=
        zzStep_alt hts hlen hpos hpct (by omega) (AltInv_mono (by omega) hst) hmid
      have h2 := zz_fold_alt hts hlen hpos hpct k (j + 1) st1 st2 (by omega)
        h1 h
      have heq : j + (k + 1) = j + 1 + k := by omega
      rw [heq]
      exact h2
/-! ## C3: direction alternation of the detector output -/

/-- C3 counterexample: with the (out-of-domain) threshold `-10` percent on
the strictly time-ordered positive-price series
`[(0,100), (1,105), (2,95), (3,90)]`, the detector returns a four-swing
sequence whose two final non-anchor swings both carry direction DOWN: the
alternation fails for an arbitrary threshold. -/
theorem zigzag_alternation_counterexample :
    zigzag [(0, 100), (1, 105), (2, 95), (3, 90)] (-10) =
      some [⟨0, 100, 0⟩, ⟨1, 105, 1⟩, ⟨2, 95, -1⟩, ⟨3, 90, -1⟩] ∧
    3 ≤ ([⟨0, 100, 0⟩, ⟨1, 105, 1⟩, ⟨2, 95, -1⟩,
          ⟨3, 90, -1⟩] : List Swing).length ∧
    ¬ List.Chain' (fun a b => a.direction ≠ b.direction)
        ([⟨0, 100, 0⟩, ⟨1, 105, 1⟩, ⟨2, 95, -1⟩,
          ⟨3, 90, -1⟩] : List Swing).tail := by
  refine ⟨?_, by norm_num, ?_⟩
  · norm_num [zigzag, zzStep, zzUpPhase, zzDownPhase, spanSlice, listMax,
      listMin, listArgmax, listArgmin, upChangeOf, dedupSwings, dedupFrom,
      List.range'_succ, List.foldlM_cons, List.foldlM_nil,
      abs_of_nonneg, abs_of_nonpos]
  · simp [List.chain'_cons]

/-- C3 amended: for every strictly time-ordered positive-price series and
every positive threshold, whenever the detector returns at least 3 swings
the non-anchor swings carry directions UP or DOWN and no two consecutive
ones share the same direction. -/
theorem zigzag_alternation (series : List (ℕ × ℚ)) (pctRaw : ℚ)
    (hts : (series.map Prod.fst).Pairwise (· < ·))
    (hpos : ∀ x ∈ series, 0 < x.2) (hpct : 0 < pctRaw) (out : List Swing)
    (h : zigzag series pctRaw = some out) (hlen : 3 ≤ out.length) :
    (∀ x ∈ out.tail, x.direction = 1 ∨ x.direction = -1) ∧
    List.Chain' (fun a b => a.direction ≠ b.direction) out.tail := by
  rcases series with _ | ⟨⟨t0, q0⟩, rest⟩
  · rw [show zigzag [] pctRaw = some [] from rfl, Option.some_inj] at h
    subst h
    simp at hlen
  rcases rest with _ | ⟨⟨t1, q1⟩, rest2⟩
  · rw [show zigzag [(t0, q0)] pctRaw = some [⟨t0, q0, 0⟩] by
        simp [zigzag, dedupSwings, dedupFrom], Option.some_inj] at h
    subst h
    simp at hlen
  set ser := (t0, q0) :: (t1, q1) :: rest2 with hser
  simp only [zigzag] at h
  rcases hfold : (List.range' 1 (ser.length - 1)).foldlM
      (zzStep (ser.map Prod.fst) (ser.map Prod.snd) (pctRaw / 100))
      ⟨0, q0, 0, [⟨t0, q0, 0⟩]⟩ with _ | fin
  · rw [hser] at hfold
    rw [hfold] at h
    exact absurd h (by simp)
  · rw [hser] at hfold
    rw [hfold] at h
    simp only [Option.some.injEq] at h
    have hpos' : ∀ x ∈ ser.map Prod.snd, 0 < x := by
      intro x hx
      rcases List.mem_map.mp hx with ⟨⟨a, b⟩, hab, rfl⟩
      exact hpos _ hab
    have hpct' : 0 < pctRaw / 100 := by positivity
    have hinit : AltInv (ser.map Prod.fst) (ser.map Prod.snd) (pctRaw / 100) 1
        ⟨0, q0, 0, [⟨t0, q0, 0⟩]⟩ := by
      refine ⟨Nat.one_pos, by simp [hser], Or.inl rfl, by simp [hser],
        by simp, by simp, ?_, Or.inl rfl, by simp, by simp, by simp, ?_, ?_⟩
      · intro x hx
        simp only [List.mem_singleton] at hx
        subst hx
        simp [hser]
      · intro h1
        simp at h1
      · intro h1
        simp at h1
    have hfin := zz_fold_alt hts (by simp) hpos' hpct' (ser.length - 1) 1
      _ fin (by simp [hser]; omega) hinit hfold
    have hbound : 1 + (ser.length - 1) = ser.length := by simp [hser]; omega
    rw [hbound] at hfin
    -- the closer appended at the final position
    have hn2 : 2 ≤ ser.length := by simp [hser]
    have hlp_lt : fin.lastPos < ser.length - 1 := by
      rcases hfin.lastPos_succ with h0 | hs
      · omega
      · have := hfin.lastPos_lt
        omega
    have hts_lt : (ser.map Prod.fst).getD fin.lastPos 0 <
        (ser.map Prod.fst).getD (ser.length - 1) 0 :=
      pairwise_getD_lt hts hlp_lt (by simp [hser])
    have hraw_pw : ((fin.swings ++
        [(⟨(ser.map Prod.fst).getD (ser.length - 1) 0,
          (ser.map Prod.snd).getD (ser.length - 1) 0, fin.dir⟩ : Swing)]).map
        Swing.idx).Pairwise (· < ·) :=
      pairwise_append_swing hfin.idx_pairwise
        (fun x hx => lt_of_le_of_lt (hfin.idx_le x hx) hts_lt)
    rw [dedupSwings_id hraw_pw] at h
    subst h
    -- the closer's direction: nonzero unless no pivot was ever confirmed
    have hdir_ne : fin.dir = 1 ∨ fin.dir = -1 := by
      rcases hfin.dirs with h0 | h1 | h1
      · exfalso
        have htl := hfin.tail_nil h0
        have : fin.swings.length = 1 := by
          rcases hsw : fin.swings with _ | ⟨a, l⟩
          · exact absurd hsw hfin.swings_ne
          · have : l = [] := by
              have := htl
              rw [hsw] at this
              exact this
            rw [this]
            rfl
        rw [List.length_append, this] at hlen
        simp at hlen
      · exact Or.inl h1
      · exact Or.inr h1
    constructor
    · intro x hx
      rw [tail_append_of_ne_nil hfin.swings_ne] at hx
      rcases List.mem_append.mp hx with hx1 | hx2
      · exact hfin.tail_dirs x hx1
      · simp only [List.mem_singleton] at hx2
        subst hx2
        exact hdir_ne
    · apply chain_ne_of_alt
      · intro x hx
        rw [tail_append_of_ne_nil hfin.swings_ne] at hx
        rcases List.mem_append.mp hx with hx1 | hx2
        · exact hfin.tail_dirs x hx1
        · simp only [List.mem_singleton] at hx2
          subst hx2
          exact hdir_ne
      · rw [tail_append_of_ne_nil hfin.swings_ne, List.chain'_append]
        refine ⟨hfin.tail_alt, List.chain'_singleton _, ?_⟩
        intro x hx y hy
        simp only [List.head?_cons, Option.mem_some_iff] at hy
        subst hy
        have := hfin.tail_last x (Option.mem_def.mp hx)
        simp only [this, neg_neg]

/-- Witness for C3 (amended) at a concrete four-point series giving four
swings. -/
theorem zigzag_alternation_witness :
    (∀ x ∈ ([⟨0, 100, 0⟩, ⟨1, 110, 1⟩, ⟨2, 99, -1⟩,
        ⟨3, 109, 1⟩] : List Swing).tail,
      x.direction = 1 ∨ x.direction = -1) ∧
    List.Chain' (fun a b => a.direction ≠ b.direction)
      ([⟨0, 100, 0⟩, ⟨1, 110, 1⟩, ⟨2, 99, -1⟩,
        ⟨3, 109, 1⟩] : List Swing).tail :=
  zigzag_alternation [(0, 100), (1, 110), (2, 99), (3, 109)] 5 (by simp)
    (by norm_num) (by norm_num) _
    (by norm_num [zigzag, zzStep, zzUpPhase, zzDownPhase, spanSlice, listMax,
      listMin, listArgmax, listArgmin, upChangeOf, dedupSwings, dedupFrom,
      List.range'_succ, List.foldlM_cons, List.foldlM_nil,
      abs_of_nonneg, abs_of_nonpos])
    (by norm_num)
